import Mathlib

/-!
# Text extractor service (`src/Index.js`)

A shallow embedding of the authored logic of the service: the API-key check
(`authenticate`), the per-page PDF text concatenation (`extractPDFText`), the
MIME/extension dispatch of the `POST /extract` handler and the whitespace
clean-up applied to the extracted text.

JavaScript strings are sequences of UTF-16 code units; they are embedded as
lists of natural numbers (one number per code unit), so that `.length` is
`List.length`.
-/

namespace Extractor

/-! ## Strings -/

/-- A JavaScript string: its UTF-16 code units, in order. -/
abbrev JSString := List Nat

/-- UTF-16 code units of one Unicode scalar value. -/
def utf16Char (c : Char) : List Nat :=
  if c.toNat < 0x10000 then [c.toNat]
  else [0xD800 + (c.toNat - 0x10000) / 0x400, 0xDC00 + (c.toNat - 0x10000) % 0x400]

/-- The JavaScript string denoted by a string literal. -/
def utf16 (s : String) : JSString :=
  s.toList.flatMap utf16Char

/-- The code units matched by `\n` (LINE FEED). -/
def isNewline (c : Nat) : Bool := c == 10

/-- The code units matched by the class `[ \t]` (SPACE, CHARACTER TABULATION). -/
def isBlank (c : Nat) : Bool := c == 32 || c == 9

/-- The code units removed by `String.prototype.trim`: ECMAScript `WhiteSpace`
(TAB, VT, FF, SP, NBSP, ZWNBSP and the Unicode space separators) and
`LineTerminator` (LF, CR, LS, PS). -/
def isWhiteSpace (c : Nat) : Bool :=
  c == 9 || c == 10 || c == 11 || c == 12 || c == 13 || c == 32 || c == 0xA0 ||
  c == 0x1680 || (0x2000 ≤ c && c ≤ 0x200A) || c == 0x2028 || c == 0x2029 ||
  c == 0x202F || c == 0x205F || c == 0x3000 || c == 0xFEFF

/-- Global replacement `s.replace(/C{m,}/g, rep)` for a character class `C`
(given as `cls`) and a lower bound `m ≥ 1`, as the regular-expression engine
performs it.  At a position outside any previous match the greedy quantifier
consumes the longest run `k` of class characters starting there; the match
succeeds when `m ≤ k`, the replacement is emitted and scanning resumes after
the `k` matched code units (the first argument counts the code units of the
current match still to be skipped).  When the match fails the code unit is
copied and scanning resumes at the next position. -/
def replaceRuns (cls : Nat → Bool) (m : Nat) (rep : JSString) : Nat → JSString → JSString
  | _, [] => []
  | skip + 1, _ :: t => replaceRuns cls m rep skip t
  | 0, c :: t =>
    if m ≤ ((c :: t).takeWhile cls).length then
      rep ++ replaceRuns cls m rep (((c :: t).takeWhile cls).length - 1) t
    else c :: replaceRuns cls m rep 0 t

/-- The step `text.replace(/\n{3,}/g, "\n\n")`. -/
def replaceNewlineRuns (text : JSString) : JSString :=
  replaceRuns isNewline 3 [10, 10] 0 text

/-- The step `text.replace(/[ \t]+/g, " ")`. -/
def replaceBlankRuns (text : JSString) : JSString :=
  replaceRuns isBlank 1 [32] 0 text

/-- Leading white space removed (`String.prototype.trimStart`). -/
def trimStart (s : JSString) : JSString := s.dropWhile isWhiteSpace

/-- Trailing white space removed (`String.prototype.trimEnd`). -/
def trimEnd (s : JSString) : JSString := (s.reverse.dropWhile isWhiteSpace).reverse

/-- The method `String.prototype.trim`: white space removed at both ends. -/
def trim (s : JSString) : JSString := trimEnd (trimStart s)

/-- The clean-up of the `/extract` handler:
`text.replace(/\n{3,}/g, "\n\n").replace(/[ \t]+/g, " ").trim()`. -/
def normalize (text : JSString) : JSString :=
  trim (replaceBlankRuns (replaceNewlineRuns text))

/-! ## Library methods used by the handler -/

/-- The method `Array.prototype.join` on an array of strings: the elements in
order, with the separator between consecutive elements. -/
def arrayJoin (sep : JSString) : List JSString → JSString
  | [] => []
  | [x] => x
  | x :: y :: rest => x ++ sep ++ arrayJoin sep (y :: rest)

/-- The method `String.prototype.endsWith`. -/
def endsWith (s searchString : JSString) : Bool := searchString.isSuffixOf s

/-- Lower-casing of the code units `A`–`Z`, every other code unit kept: what
`String.prototype.toLowerCase` does on a string of ASCII code units.  It is
used to build sample environments only; the handler takes the method from its
environment. -/
def asciiToLowerCase (s : JSString) : JSString :=
  s.map (fun c => if 65 ≤ c ∧ c ≤ 90 then c + 32 else c)

/-! ## Requests, responses and the environment -/

/-- The bytes of an uploaded file (`req.file.buffer`). -/
abbrev Buffer := List Nat

/-- A thrown JavaScript exception (a rejected promise). -/
structure JSError where
  message : JSString
  deriving DecidableEq, Repr

/-- The object `req.file` that `upload.single("file")` attaches to the request. -/
structure UploadedFile where
  buffer : Buffer
  mimetype : JSString
  originalname : JSString
  deriving DecidableEq, Repr

/-- What the route reads of a request: the header `x-api-key` (`none` when the
header is absent, i.e. `undefined`) and `req.file` as delivered by
`upload.single("file")` (`none` when no file field was attached). -/
structure Request where
  apiKeyHeader : Option JSString
  file : Option UploadedFile
  deriving DecidableEq, Repr

/-- The JSON bodies the route sends: `{ error }` or
`{ success, filename, characters, text }`. -/
inductive Body where
  | error (error : JSString)
  | success (success : Bool) (filename : JSString) (characters : Nat) (text : JSString)
  deriving DecidableEq, Repr

/-- An HTTP response: status code and JSON body. -/
structure Response where
  status : Nat
  body : Body
  deriving DecidableEq, Repr

/-- A text item of a page (`item.str` is the only field read). -/
structure TextItem where
  str : JSString
  deriving DecidableEq, Repr

/-- The value `page.getTextContent()` resolves with. -/
structure TextContent where
  items : List TextItem
  deriving DecidableEq, Repr

/-- A page proxy: `getTextContent()` resolves with the content or rejects. -/
structure PDFPage where
  getTextContent : Except JSError TextContent

/-- A loaded document: `numPages` and `getPage(i)`, which resolves or rejects. -/
structure PDFDocument where
  numPages : Nat
  getPage : Nat → Except JSError PDFPage

/-- What the module takes from outside: the configured secret
`process.env.API_KEY` (`none` when unset), the built-in
`String.prototype.toLowerCase`, `mammoth.extractRawText` (resolving with
`result.value`) and `pdfjsLib.getDocument(...).promise`. -/
structure Env where
  API_KEY : Option JSString
  toLowerCase : JSString → JSString
  extractRawText : Buffer → Except JSError JSString
  getDocument : Buffer → Except JSError PDFDocument

/-- The document whose pages hold the given text-item strings: page `i`
(counted from 1) is the `i`-th entry, any other page number is rejected. -/
def PDFDocument.ofPages (pages : List (List JSString)) : PDFDocument where
  numPages := pages.length
  getPage := fun i =>
    if i = 0 then .error ⟨utf16 "Invalid page request"⟩
    else match pages[i - 1]? with
      | some items => .ok ⟨.ok ⟨items.map TextItem.mk⟩⟩
      | none => .error ⟨utf16 "Invalid page request"⟩

/-- The stages of the route that a request can reach beyond authentication. -/
inductive Call where
  | uploadParse
  | extractRawText
  | extractPDFText
  deriving DecidableEq, Repr

/-- The response sent for a request, with the stages it reached, in order. -/
structure Outcome where
  response : Response
  calls : List Call
  deriving DecidableEq, Repr

/-! ## `authenticate` -/

/-- JavaScript falsiness of a value that is a string or `undefined`. -/
def falsy : Option JSString → Bool
  | none => true
  | some s => s.isEmpty

/-- What a middleware does: call `next()` or send a response. -/
inductive Middleware where
  | next
  | respond (r : Response)
  deriving DecidableEq, Repr

/-- The function `authenticate(req, res, next)`. -/
def authenticate (env : Env) (req : Request) : Middleware :=
  if falsy env.API_KEY || req.apiKeyHeader != env.API_KEY then
    .respond ⟨401, .error (utf16 "Unauthorized")⟩
  else .next

/-! ## `extractPDFText` -/

/-- The loop `for (let i = 1; i <= pdf.numPages; i++) { ... }` of
`extractPDFText`: `remaining` iterations are left, `i` is the loop variable and
`fullText` the text accumulated so far. -/
def pageLoop (pdf : PDFDocument) : (remaining : Nat) → (i : Nat) → (fullText : JSString) →
    Except JSError JSString
  | 0, _, fullText => .ok fullText
  | remaining + 1, i, fullText =>
    match pdf.getPage i with
    | .error e => .error e
    | .ok page =>
      match page.getTextContent with
      | .error e => .error e
      | .ok content =>
        pageLoop pdf remaining (i + 1)
          (fullText ++ (arrayJoin [32] (content.items.map (fun item => item.str)) ++ [10]))

/-- The text the loop adds for one page: its items joined by a space, then a
newline. -/
def pageText (items : List JSString) : JSString := arrayJoin [32] items ++ [10]

/-- The function `extractPDFText(buffer)`. -/
def extractPDFText (env : Env) (buffer : Buffer) : Except JSError JSString :=
  match env.getDocument buffer with
  | .error e => .error e
  | .ok pdf => pageLoop pdf pdf.numPages 1 []

/-! ## The `POST /extract` route -/

/-- The MIME type of DOCX documents. -/
def docxMime : JSString :=
  utf16 "application/vnd.openxmlformats-officedocument.wordprocessingml.document"

/-- The MIME type of PDF documents. -/
def pdfMime : JSString := utf16 "application/pdf"

/-- The first test of the dispatch (`// DOCX`). -/
def isDocx (env : Env) (file : UploadedFile) : Bool :=
  file.mimetype == docxMime || endsWith (env.toLowerCase file.originalname) (utf16 ".docx")

/-- The second test of the dispatch (`// PDF`). -/
def isPdf (env : Env) (file : UploadedFile) : Bool :=
  file.mimetype == pdfMime || endsWith (env.toLowerCase file.originalname) (utf16 ".pdf")

/-- The tail of the handler, from `// Cleanup for AI` to `res.json(...)`. -/
def respondText (originalname text : JSString) : Response :=
  ⟨200, .success true originalname (normalize text).length (normalize text)⟩

/-- The response of the `catch` branch. -/
def extractionFailed : Response := ⟨500, .error (utf16 "Extraction failed")⟩

/-- The handler of `POST /extract` (the `async (req, res) => { ... }` after the
two middlewares).  An exception of either extractor is caught and answered by
`500`; the logging of the exception is not modelled. -/
def extractHandler (env : Env) (req : Request) : Outcome :=
  match req.file with
  | none => ⟨⟨400, .error (utf16 "No file uploaded")⟩, []⟩
  | some file =>
    if isDocx env file then
      match env.extractRawText file.buffer with
      | .error _ => ⟨extractionFailed, [.extractRawText]⟩
      | .ok value => ⟨respondText file.originalname value, [.extractRawText]⟩
    else if isPdf env file then
      match extractPDFText env file.buffer with
      | .error _ => ⟨extractionFailed, [.extractPDFText]⟩
      | .ok text => ⟨respondText file.originalname text, [.extractPDFText]⟩
    else ⟨⟨400, .error (utf16 "Unsupported file type")⟩, []⟩

/-- The route `app.post("/extract", authenticate, upload.single("file"), handler)`:
the upload parser and the handler run only when `authenticate` calls `next()`. -/
def postExtract (env : Env) (req : Request) : Outcome :=
  match authenticate env req with
  | .respond r => ⟨r, []⟩
  | .next => ⟨(extractHandler env req).response, .uploadParse :: (extractHandler env req).calls⟩

/-! ## Sample inputs -/

/-- An environment with secret `"s3cret"`, whose DOCX extractor returns a fixed
text and whose PDF parser finds one page with the single item `"Hello World"`. -/
def sampleEnv : Env where
  API_KEY := some (utf16 "s3cret")
  toLowerCase := asciiToLowerCase
  extractRawText := fun _ => .ok (utf16 "Dear  reader,\n\n\n\nbye\n")
  getDocument := fun _ => .ok (PDFDocument.ofPages [[utf16 "Hello World"]])

/-- A document of four pages: three items, no item, an empty item followed by
another, one item. -/
def samplePages : List (List JSString) :=
  [[utf16 "Dear", utf16 "reader,", utf16 "hello"], [], [utf16 "", utf16 "page 3"], [utf16 "bye"]]

/-- The sample environment with a PDF parser that finds the given pages. -/
def pagesEnv (pages : List (List JSString)) : Env where
  API_KEY := sampleEnv.API_KEY
  toLowerCase := sampleEnv.toLowerCase
  extractRawText := sampleEnv.extractRawText
  getDocument := fun _ => .ok (PDFDocument.ofPages pages)

/-! ## Facts about the replacement engine -/

theorem replaceRuns_skip (cls : Nat → Bool) (m : Nat) (rep : JSString) (j : Nat)
    (s : JSString) :
    replaceRuns cls m rep j s = replaceRuns cls m rep 0 (s.drop j) := by
  induction s generalizing j with
  | nil => cases j <;> simp [replaceRuns]
  | cons c t ih =>
    cases j with
    | zero => simp
    | succ j => simp only [replaceRuns, List.drop_succ_cons]; exact ih j

theorem drop_length_takeWhile (cls : Nat → Bool) (s : JSString) :
    s.drop (s.takeWhile cls).length = s.dropWhile cls := by
  induction s with
  | nil => simp
  | cons c t ih =>
    by_cases h : cls c = true
    · simp [List.takeWhile_cons, List.dropWhile_cons, h, ih]
    · simp [List.takeWhile_cons, List.dropWhile_cons, h]

theorem replaceRuns_cons_neg (cls : Nat → Bool) (m : Nat) (rep : JSString) (c : Nat)
    (t : JSString) (hm : 1 ≤ m) (hc : cls c = false) :
    replaceRuns cls m rep 0 (c :: t) = c :: replaceRuns cls m rep 0 t := by
  have : ¬ m ≤ 0 := by omega
  simp [replaceRuns, List.takeWhile_cons, hc, this]

theorem replaceRuns_cons_pos (cls : Nat → Bool) (m : Nat) (rep : JSString) (c : Nat)
    (t : JSString) (hc : cls c = true) :
    replaceRuns cls m rep 0 (c :: t) =
      if m ≤ (t.takeWhile cls).length + 1 then
        rep ++ replaceRuns cls m rep 0 (t.dropWhile cls)
      else c :: replaceRuns cls m rep 0 t := by
  simp only [replaceRuns, List.takeWhile_cons, hc, if_true, List.length_cons,
    Nat.add_sub_cancel]
  rw [replaceRuns_skip cls m rep (t.takeWhile cls).length t, drop_length_takeWhile]

/-! ## The newline step -/

theorem replaceNewlineRuns_nil : replaceNewlineRuns [] = [] := by
  simp [replaceNewlineRuns, replaceRuns]

theorem replaceNewlineRuns_cons_ne (c : Nat) (t : JSString) (hc : c ≠ 10) :
    replaceNewlineRuns (c :: t) = c :: replaceNewlineRuns t := by
  unfold replaceNewlineRuns
  exact replaceRuns_cons_neg _ _ _ _ _ (by decide) (by simp [isNewline, hc])

theorem replaceNewlineRuns_nl (t : JSString) :
    replaceNewlineRuns (10 :: t) =
      if 2 ≤ (t.takeWhile isNewline).length then
        10 :: 10 :: replaceNewlineRuns (t.dropWhile isNewline)
      else 10 :: replaceNewlineRuns t := by
  unfold replaceNewlineRuns
  rw [replaceRuns_cons_pos _ _ _ _ _ (by decide)]
  by_cases h : 2 ≤ (t.takeWhile isNewline).length
  · have h3 : 3 ≤ (t.takeWhile isNewline).length + 1 := by omega
    simp [h, h3]
  · have h3 : ¬ 3 ≤ (t.takeWhile isNewline).length + 1 := by omega
    simp [h, h3]

theorem dropWhile_eq_self_of_takeWhile_nil (cls : Nat → Bool) (t : JSString)
    (h : t.takeWhile cls = []) : t.dropWhile cls = t := by
  have := List.takeWhile_append_dropWhile cls t
  rw [h] at this
  simpa using this

/-- A third newline in front of two newlines is absorbed. -/
theorem replaceNewlineRuns_triple (t : JSString) :
    replaceNewlineRuns (10 :: 10 :: 10 :: t) = replaceNewlineRuns (10 :: 10 :: t) := by
  rw [replaceNewlineRuns_nl, replaceNewlineRuns_nl (10 :: t)]
  have e1 : ((10 :: 10 :: t).takeWhile isNewline).length
      = (t.takeWhile isNewline).length + 2 := by
    simp [List.takeWhile_cons, isNewline]
  have e2 : ((10 :: t).takeWhile isNewline).length
      = (t.takeWhile isNewline).length + 1 := by
    simp [List.takeWhile_cons, isNewline]
  have d1 : (10 :: 10 :: t).dropWhile isNewline = t.dropWhile isNewline := by
    simp [List.dropWhile_cons, isNewline]
  have d2 : (10 :: t).dropWhile isNewline = t.dropWhile isNewline := by
    simp [List.dropWhile_cons, isNewline]
  rw [e1, e2, d1, d2]
  by_cases h : 1 ≤ (t.takeWhile isNewline).length
  · have h2 : 2 ≤ (t.takeWhile isNewline).length + 1 := by omega
    simp [h2]
  · have h2 : ¬ 2 ≤ (t.takeWhile isNewline).length + 1 := by omega
    have h0 : t.takeWhile isNewline = [] := by
      apply List.eq_nil_of_length_eq_zero; omega
    rw [if_pos (by omega), if_neg h2, replaceNewlineRuns_nl t, if_neg (by omega),
      dropWhile_eq_self_of_takeWhile_nil _ _ h0]

/-- A newline that does not start a run of three is copied. -/
theorem replaceNewlineRuns_cons_of_not_starts (c : Nat) (t : JSString)
    (h : ¬ [10, 10, 10] <+: c :: t) :
    replaceNewlineRuns (c :: t) = c :: replaceNewlineRuns t := by
  by_cases hc : c = 10
  · subst hc
    rw [replaceNewlineRuns_nl, if_neg]
    intro h2
    apply h
    match t, h2 with
    | a :: b :: u, h2 =>
      by_cases ha : a = 10
      · by_cases hb : b = 10
        · subst ha; subst hb
          exact ⟨u, rfl⟩
        · simp [List.takeWhile_cons, isNewline, ha, hb] at h2
      · simp [List.takeWhile_cons, isNewline, ha] at h2
    | [a], h2 =>
      simp [List.takeWhile_cons, isNewline] at h2
      split at h2 <;> simp at h2
    | [], h2 => simp at h2
  · exact replaceNewlineRuns_cons_ne c t hc

theorem starts_triple_iff (c : Nat) (t : JSString) :
    [10, 10, 10] <+: c :: t ↔ c = 10 ∧ ∃ u, t = 10 :: 10 :: u := by
  constructor
  · rintro ⟨u, hu⟩
    simp only [List.cons_append, List.nil_append, List.cons.injEq] at hu
    exact ⟨hu.1.symm, u, hu.2.symm⟩
  · rintro ⟨rfl, u, rfl⟩
    exact ⟨u, rfl⟩

theorem head?_replaceNewlineRuns (s : JSString) :
    (replaceNewlineRuns s).head? = s.head? := by
  induction s with
  | nil => simp [replaceNewlineRuns_nil]
  | cons c t ih =>
    by_cases h : [10, 10, 10] <+: c :: t
    · obtain ⟨rfl, u, rfl⟩ := (starts_triple_iff c t).1 h
      rw [replaceNewlineRuns_triple, ih]
      simp
    · rw [replaceNewlineRuns_cons_of_not_starts c t h]
      simp

theorem starts_pair_of_replaceNewlineRuns (t : JSString)
    (h : [10, 10] <+: replaceNewlineRuns t) : [10, 10] <+: t := by
  cases t with
  | nil => simp [replaceNewlineRuns_nil] at h
  | cons a t =>
    by_cases h3 : [10, 10, 10] <+: a :: t
    · obtain ⟨rfl, u, rfl⟩ := (starts_triple_iff a t).1 h3
      exact ⟨10 :: u, rfl⟩
    · rw [replaceNewlineRuns_cons_of_not_starts a t h3] at h
      obtain ⟨u, hu⟩ := h
      simp only [List.cons_append, List.nil_append, List.cons.injEq] at hu
      have hh : (replaceNewlineRuns t).head? = some 10 := by rw [← hu.2]; rfl
      rw [head?_replaceNewlineRuns] at hh
      cases t with
      | nil => simp at hh
      | cons b t =>
        simp only [List.head?_cons, Option.some.injEq] at hh
        rw [← hu.1, hh]
        exact ⟨t, rfl⟩

/-- The newline step leaves no run of three newlines. -/
theorem replaceNewlineRuns_no_triple (s : JSString) :
    ¬ [10, 10, 10] <:+: replaceNewlineRuns s := by
  induction s with
  | nil => simp [replaceNewlineRuns_nil]
  | cons c t ih =>
    by_cases h : [10, 10, 10] <+: c :: t
    · obtain ⟨rfl, u, rfl⟩ := (starts_triple_iff c t).1 h
      rw [replaceNewlineRuns_triple]
      exact ih
    · rw [replaceNewlineRuns_cons_of_not_starts c t h, List.infix_cons_iff]
      rintro (hp | hi)
      · apply h
        obtain ⟨hc, u, hu⟩ := (starts_triple_iff c _).1 hp
        obtain ⟨v, hv⟩ := starts_pair_of_replaceNewlineRuns t ⟨u, hu.symm⟩
        exact (starts_triple_iff c t).2 ⟨hc, v, hv.symm⟩
      · exact ih hi

/-- The newline step changes nothing in a string without three newlines in a row. -/
theorem replaceNewlineRuns_eq_self (s : JSString) (h : ¬ [10, 10, 10] <:+: s) :
    replaceNewlineRuns s = s := by
  induction s with
  | nil => exact replaceNewlineRuns_nil
  | cons c t ih =>
    rw [List.infix_cons_iff, not_or] at h
    rw [replaceNewlineRuns_cons_of_not_starts c t h.1, ih h.2]

theorem filter_replaceNewlineRuns (s : JSString) :
    (replaceNewlineRuns s).filter (fun c => !isWhiteSpace c)
      = s.filter (fun c => !isWhiteSpace c) := by
  induction s with
  | nil => simp [replaceNewlineRuns_nil]
  | cons c t ih =>
    by_cases h : [10, 10, 10] <+: c :: t
    · obtain ⟨rfl, u, rfl⟩ := (starts_triple_iff c t).1 h
      rw [replaceNewlineRuns_triple, ih]
      simp [List.filter_cons, isWhiteSpace]
    · rw [replaceNewlineRuns_cons_of_not_starts c t h]
      simp [List.filter_cons, ih]

/-! ## The blank step -/

theorem isBlank_iff (c : Nat) : isBlank c = true ↔ c = 32 ∨ c = 9 := by
  simp [isBlank]

theorem isWhiteSpace_of_isBlank (c : Nat) (h : isBlank c = true) :
    isWhiteSpace c = true := by
  rcases (isBlank_iff c).1 h with rfl | rfl <;> decide

theorem replaceBlankRuns_nil : replaceBlankRuns [] = [] := by
  simp [replaceBlankRuns, replaceRuns]

theorem replaceBlankRuns_cons_neg (c : Nat) (t : JSString) (hc : isBlank c = false) :
    replaceBlankRuns (c :: t) = c :: replaceBlankRuns t := by
  unfold replaceBlankRuns
  exact replaceRuns_cons_neg _ _ _ _ _ (by decide) hc

theorem replaceBlankRuns_cons_pos (c : Nat) (t : JSString) (hc : isBlank c = true) :
    replaceBlankRuns (c :: t) = 32 :: replaceBlankRuns (t.dropWhile isBlank) := by
  unfold replaceBlankRuns
  rw [replaceRuns_cons_pos _ _ _ _ _ hc, if_pos (by omega)]
  rfl

/-- The three ways the blank step treats the first code unit: copied when it is
no blank, absorbed when a blank follows, replaced by one space otherwise. -/
theorem replaceBlankRuns_cases (c : Nat) (t : JSString) :
    (isBlank c = false ∧ replaceBlankRuns (c :: t) = c :: replaceBlankRuns t) ∨
    (isBlank c = true ∧ (∃ d u, t = d :: u ∧ isBlank d = true) ∧
      replaceBlankRuns (c :: t) = replaceBlankRuns t) ∨
    (isBlank c = true ∧ (∀ x, t.head? = some x → isBlank x = false) ∧
      replaceBlankRuns (c :: t) = 32 :: replaceBlankRuns t) := by
  cases hc : isBlank c with
  | false => exact Or.inl ⟨rfl, replaceBlankRuns_cons_neg c t hc⟩
  | true =>
    right
    cases t with
    | nil =>
      right
      refine ⟨rfl, by simp, ?_⟩
      rw [replaceBlankRuns_cons_pos c [] hc]
      rfl
    | cons d u =>
      cases hd : isBlank d with
      | true =>
        left
        refine ⟨rfl, ⟨d, u, rfl, hd⟩, ?_⟩
        rw [replaceBlankRuns_cons_pos c _ hc, replaceBlankRuns_cons_pos d _ hd,
          List.dropWhile_cons_of_pos hd]
      | false =>
        right
        refine ⟨rfl, ?_, ?_⟩
        · intro x hx
          simp only [List.head?_cons, Option.some.injEq] at hx
          rw [← hx]; exact hd
        · rw [replaceBlankRuns_cons_pos c _ hc, List.dropWhile_cons_of_neg (by simp [hd])]

theorem head?_replaceBlankRuns (s : JSString) :
    (replaceBlankRuns s).head? = s.head?.map (fun c => if isBlank c = true then 32 else c) := by
  cases s with
  | nil => simp [replaceBlankRuns_nil]
  | cons c t =>
    cases hc : isBlank c with
    | false => simp [replaceBlankRuns_cons_neg c t hc, hc]
    | true => simp [replaceBlankRuns_cons_pos c t hc, hc]

/-- The blank step leaves no tab. -/
theorem replaceBlankRuns_no_tab (s : JSString) : 9 ∉ replaceBlankRuns s := by
  induction s with
  | nil => simp [replaceBlankRuns_nil]
  | cons c t ih =>
    rcases replaceBlankRuns_cases c t with ⟨hc, e⟩ | ⟨_, _, e⟩ | ⟨_, _, e⟩
    · rw [e, List.mem_cons, not_or]
      refine ⟨?_, ih⟩
      rintro rfl
      simp [isBlank] at hc
    · rw [e]; exact ih
    · rw [e, List.mem_cons, not_or]
      exact ⟨by decide, ih⟩

/-- The blank step leaves no two spaces in a row. -/
theorem replaceBlankRuns_no_double_space (s : JSString) :
    ¬ [32, 32] <:+: replaceBlankRuns s := by
  induction s with
  | nil => simp [replaceBlankRuns_nil]
  | cons c t ih =>
    rcases replaceBlankRuns_cases c t with ⟨hc, e⟩ | ⟨_, _, e⟩ | ⟨_, ht, e⟩
    · rw [e, List.infix_cons_iff]
      rintro (⟨u, hu⟩ | hi)
      · simp only [List.cons_append, List.nil_append, List.cons.injEq] at hu
        rw [← hu.1] at hc
        simp [isBlank] at hc
      · exact ih hi
    · rw [e]; exact ih
    · rw [e, List.infix_cons_iff]
      rintro (⟨u, hu⟩ | hi)
      · simp only [List.cons_append, List.nil_append, List.cons.injEq, true_and] at hu
        have hh : (replaceBlankRuns t).head? = some 32 := by rw [← hu]; rfl
        rw [head?_replaceBlankRuns] at hh
        cases t with
        | nil => simp at hh
        | cons d u =>
          have hd := ht d rfl
          simp only [List.head?_cons, Option.map_some', hd, Option.some.injEq] at hh
          simp at hh
          rw [hh] at hd
          simp [isBlank] at hd
      · exact ih hi

theorem starts_pair_of_replaceBlankRuns (t : JSString)
    (h : [10, 10] <+: replaceBlankRuns t) : [10, 10] <+: t := by
  have key : ∀ (w : JSString) (r : JSString), replaceBlankRuns w = 10 :: r →
      ∃ v, w = 10 :: v ∧ replaceBlankRuns v = r := by
    intro w r hw
    cases w with
    | nil => simp [replaceBlankRuns_nil] at hw
    | cons a v =>
      cases ha : isBlank a with
      | true => simp [replaceBlankRuns_cons_pos a v ha] at hw
      | false =>
        rw [replaceBlankRuns_cons_neg a v ha] at hw
        simp only [List.cons.injEq] at hw
        exact ⟨v, by rw [hw.1], hw.2⟩
  obtain ⟨u, hu⟩ := h
  obtain ⟨v, rfl, hv⟩ := key t (10 :: u) hu.symm
  obtain ⟨w, rfl, _⟩ := key v u hv
  exact ⟨w, rfl⟩

/-- The blank step creates no run of three newlines. -/
theorem replaceBlankRuns_no_triple (s : JSString) (h : ¬ [10, 10, 10] <:+: s) :
    ¬ [10, 10, 10] <:+: replaceBlankRuns s := by
  induction s with
  | nil => simp [replaceBlankRuns_nil]
  | cons c t ih =>
    rw [List.infix_cons_iff, not_or] at h
    rcases replaceBlankRuns_cases c t with ⟨_, e⟩ | ⟨_, _, e⟩ | ⟨_, _, e⟩
    · rw [e, List.infix_cons_iff]
      rintro (hp | hi)
      · apply h.1
        obtain ⟨hc, u, hu⟩ := (starts_triple_iff c _).1 hp
        obtain ⟨v, hv⟩ := starts_pair_of_replaceBlankRuns t ⟨u, hu.symm⟩
        exact (starts_triple_iff c t).2 ⟨hc, v, hv.symm⟩
      · exact ih h.2 hi
    · rw [e]; exact ih h.2
    · rw [e, List.infix_cons_iff]
      rintro (hp | hi)
      · have := ((starts_triple_iff 32 _).1 hp).1
        omega
      · exact ih h.2 hi

/-- The blank step changes nothing in a string without tab and without two
spaces in a row. -/
theorem replaceBlankRuns_eq_self (s : JSString) (htab : 9 ∉ s)
    (h : ¬ [32, 32] <:+: s) : replaceBlankRuns s = s := by
  induction s with
  | nil => exact replaceBlankRuns_nil
  | cons c t ih =>
    rw [List.infix_cons_iff, not_or] at h
    rw [List.mem_cons, not_or] at htab
    have hc32 : isBlank c = true → c = 32 := by
      intro hc
      rcases (isBlank_iff c).1 hc with h1 | h1
      · exact h1
      · exact absurd h1.symm htab.1
    rcases replaceBlankRuns_cases c t with ⟨_, e⟩ | ⟨hc, ⟨d, u, rfl, hd⟩, _⟩ | ⟨hc, _, e⟩
    · rw [e, ih htab.2 h.2]
    · exfalso
      apply h.1
      have hd32 : d = 32 := by
        rcases (isBlank_iff d).1 hd with h1 | h1
        · exact h1
        · exact absurd (by simp [h1]) htab.2
      rw [hc32 hc, hd32]
      exact ⟨u, rfl⟩
    · rw [e, ih htab.2 h.2, hc32 hc]

theorem filter_replaceBlankRuns (s : JSString) :
    (replaceBlankRuns s).filter (fun c => !isWhiteSpace c)
      = s.filter (fun c => !isWhiteSpace c) := by
  induction s with
  | nil => simp [replaceBlankRuns_nil]
  | cons c t ih =>
    rcases replaceBlankRuns_cases c t with ⟨_, e⟩ | ⟨hc, _, e⟩ | ⟨hc, _, e⟩
    · rw [e]
      simp [List.filter_cons, ih]
    · rw [e, ih]
      simp [List.filter_cons, isWhiteSpace_of_isBlank c hc]
    · rw [e]
      have h32 : isWhiteSpace 32 = true := by decide
      simp [List.filter_cons, isWhiteSpace_of_isBlank c hc, h32, ih]

/-! ## Trimming -/

theorem dropWhile_eq_self_of_head (cls : Nat → Bool) (s : JSString)
    (h : ∀ c, s.head? = some c → cls c = false) : s.dropWhile cls = s := by
  cases s with
  | nil => rfl
  | cons a t => exact List.dropWhile_cons_of_neg (by simp [h a rfl])

theorem head?_dropWhile_false (cls : Nat → Bool) (s : JSString) (c : Nat)
    (h : (s.dropWhile cls).head? = some c) : cls c = false := by
  have := List.head?_dropWhile_not cls s
  rw [h] at this
  exact this

theorem trimEnd_isPrefix (s : JSString) : trimEnd s <+: s := by
  unfold trimEnd
  have h : s.reverse.dropWhile isWhiteSpace <:+ s.reverse := List.dropWhile_suffix _
  have := List.reverse_prefix.2 h
  simpa using this

theorem trim_isInfix (s : JSString) : trim s <:+: s := by
  unfold trim trimStart
  exact List.IsInfix.trans (trimEnd_isPrefix _).isInfix (List.dropWhile_suffix _).isInfix

theorem trim_head (s : JSString) (c : Nat) (h : (trim s).head? = some c) :
    isWhiteSpace c = false := by
  unfold trim at h
  obtain ⟨u, hu⟩ := trimEnd_isPrefix (trimStart s)
  apply head?_dropWhile_false isWhiteSpace s c
  show (trimStart s).head? = some c
  rw [← hu]
  cases hx : trimEnd (trimStart s) with
  | nil => rw [hx] at h; simp at h
  | cons a t => rw [hx] at h; simpa using h

theorem trim_getLast (s : JSString) (c : Nat) (h : (trim s).getLast? = some c) :
    isWhiteSpace c = false := by
  unfold trim trimEnd at h
  rw [List.getLast?_reverse] at h
  exact head?_dropWhile_false isWhiteSpace _ c h

theorem trim_eq_self (s : JSString)
    (hh : ∀ c, s.head? = some c → isWhiteSpace c = false)
    (hl : ∀ c, s.getLast? = some c → isWhiteSpace c = false) : trim s = s := by
  unfold trim trimStart trimEnd
  rw [dropWhile_eq_self_of_head isWhiteSpace s hh,
    dropWhile_eq_self_of_head isWhiteSpace s.reverse (by
      intro c hc
      rw [List.head?_reverse] at hc
      exact hl c hc)]
  exact List.reverse_reverse s

theorem filter_dropWhile_isWhiteSpace (s : JSString) :
    (s.dropWhile isWhiteSpace).filter (fun c => !isWhiteSpace c)
      = s.filter (fun c => !isWhiteSpace c) := by
  induction s with
  | nil => rfl
  | cons a t ih =>
    cases ha : isWhiteSpace a with
    | true => rw [List.dropWhile_cons_of_pos ha, ih]; simp [List.filter_cons, ha]
    | false => rw [List.dropWhile_cons_of_neg (by simp [ha])]

theorem filter_trim (s : JSString) :
    (trim s).filter (fun c => !isWhiteSpace c) = s.filter (fun c => !isWhiteSpace c) := by
  unfold trim trimEnd trimStart
  rw [List.filter_reverse, filter_dropWhile_isWhiteSpace, ← List.filter_reverse,
    List.reverse_reverse, filter_dropWhile_isWhiteSpace]

/-! ## Strings without white space -/

theorem replaceNewlineRuns_append_of_no_newline (a x : JSString)
    (ha : ∀ c ∈ a, c ≠ 10) :
    replaceNewlineRuns (a ++ x) = a ++ replaceNewlineRuns x := by
  induction a with
  | nil => rfl
  | cons c t ih =>
    rw [List.cons_append, replaceNewlineRuns_cons_ne c _ (ha c (List.mem_cons_self _ _)),
      ih (fun d hd => ha d (List.mem_cons_of_mem _ hd)), List.cons_append]

theorem replaceBlankRuns_of_no_blank (s : JSString) (hs : ∀ c ∈ s, isBlank c = false) :
    replaceBlankRuns s = s := by
  induction s with
  | nil => exact replaceBlankRuns_nil
  | cons c t ih =>
    rw [replaceBlankRuns_cons_neg c t (hs c (List.mem_cons_self _ _)),
      ih (fun d hd => hs d (List.mem_cons_of_mem _ hd))]

theorem replaceNewlineRuns_replicate (k : Nat) (b : JSString) (hb : ∀ c ∈ b, c ≠ 10) :
    replaceNewlineRuns (List.replicate (k + 2) 10 ++ b) = 10 :: 10 :: b := by
  have hb0 : replaceNewlineRuns b = b := by
    simpa [replaceNewlineRuns_nil] using replaceNewlineRuns_append_of_no_newline b [] hb
  induction k with
  | zero =>
    have h1 : ¬ [10, 10, 10] <+: 10 :: b := by
      rw [starts_triple_iff]
      rintro ⟨_, u, rfl⟩
      exact hb 10 (List.mem_cons_self _ _) rfl
    have h2 : ¬ [10, 10, 10] <+: 10 :: 10 :: b := by
      rw [starts_triple_iff]
      rintro ⟨_, u, hu⟩
      simp only [List.cons.injEq, true_and] at hu
      rw [hu] at hb
      exact hb 10 (List.mem_cons_self _ _) rfl
    show replaceNewlineRuns (10 :: 10 :: b) = _
    rw [replaceNewlineRuns_cons_of_not_starts _ _ h2,
      replaceNewlineRuns_cons_of_not_starts _ _ h1, hb0]
  | succ k ih =>
    show replaceNewlineRuns (10 :: 10 :: 10 :: (List.replicate k 10 ++ b)) = _
    rw [replaceNewlineRuns_triple]
    exact ih

/-! ## White space around a core -/

theorem replaceNewlineRuns_append_cons (u t : JSString) (c : Nat) (hc : c ≠ 10) :
    replaceNewlineRuns (u ++ c :: t) = replaceNewlineRuns u ++ c :: replaceNewlineRuns t := by
  induction u with
  | nil => simp [replaceNewlineRuns_nil, replaceNewlineRuns_cons_ne c t hc]
  | cons d v ih =>
    by_cases hp : [10, 10, 10] <+: d :: v
    · obtain ⟨rfl, w, rfl⟩ := (starts_triple_iff d v).1 hp
      have e : (10 :: 10 :: 10 :: w) ++ c :: t = 10 :: 10 :: 10 :: (w ++ c :: t) := rfl
      have e2 : 10 :: 10 :: (w ++ c :: t) = (10 :: 10 :: w) ++ c :: t := rfl
      rw [e, replaceNewlineRuns_triple, replaceNewlineRuns_triple, e2, ih]
    · have hq : ¬ [10, 10, 10] <+: d :: (v ++ c :: t) := by
        intro hq
        obtain ⟨hd, w, hw⟩ := (starts_triple_iff d _).1 hq
        apply hp
        rw [starts_triple_iff]
        refine ⟨hd, ?_⟩
        match v, hw with
        | [], hw =>
          simp only [List.nil_append, List.cons.injEq] at hw
          exact absurd hw.1 hc
        | [x], hw =>
          simp only [List.cons_append, List.nil_append, List.cons.injEq] at hw
          exact absurd hw.2.1 hc
        | x :: y :: z, hw =>
          simp only [List.cons_append, List.cons.injEq] at hw
          exact ⟨z, by rw [hw.1, hw.2.1]⟩
      rw [List.cons_append, replaceNewlineRuns_cons_of_not_starts d _ hq,
        replaceNewlineRuns_cons_of_not_starts d v hp, ih, List.cons_append]

theorem replaceBlankRuns_append_cons (u t : JSString) (c : Nat) (hc : isBlank c = false) :
    replaceBlankRuns (u ++ c :: t) = replaceBlankRuns u ++ c :: replaceBlankRuns t := by
  induction u with
  | nil => simp [replaceBlankRuns_nil, replaceBlankRuns_cons_neg c t hc]
  | cons d v ih =>
    cases hd : isBlank d with
    | false =>
      rw [List.cons_append, replaceBlankRuns_cons_neg d _ hd, replaceBlankRuns_cons_neg d v hd,
        ih, List.cons_append]
    | true =>
      cases v with
      | nil =>
        rw [List.cons_append, List.nil_append, replaceBlankRuns_cons_pos d _ hd,
          replaceBlankRuns_cons_pos d [] hd,
          List.dropWhile_cons_of_neg (by simp [hc]), replaceBlankRuns_cons_neg c t hc]
        simp [replaceBlankRuns_nil]
      | cons e w =>
        cases he : isBlank e with
        | true =>
          have h1 : replaceBlankRuns (d :: e :: w ++ c :: t)
              = replaceBlankRuns (e :: w ++ c :: t) := by
            show replaceBlankRuns (d :: (e :: (w ++ c :: t))) = replaceBlankRuns (e :: (w ++ c :: t))
            rw [replaceBlankRuns_cons_pos d _ hd, replaceBlankRuns_cons_pos e _ he,
              List.dropWhile_cons_of_pos he]
          have h2 : replaceBlankRuns (d :: e :: w) = replaceBlankRuns (e :: w) := by
            rw [replaceBlankRuns_cons_pos d _ hd, replaceBlankRuns_cons_pos e _ he,
              List.dropWhile_cons_of_pos he]
          rw [h1, h2, ih]
        | false =>
          have h1 : replaceBlankRuns (d :: e :: w ++ c :: t)
              = 32 :: replaceBlankRuns (e :: w ++ c :: t) := by
            show replaceBlankRuns (d :: (e :: (w ++ c :: t))) = _
            rw [replaceBlankRuns_cons_pos d _ hd, List.dropWhile_cons_of_neg (by simp [he])]
            rfl
          have h2 : replaceBlankRuns (d :: e :: w) = 32 :: replaceBlankRuns (e :: w) := by
            rw [replaceBlankRuns_cons_pos d _ hd, List.dropWhile_cons_of_neg (by simp [he])]
          rw [h1, h2, ih, List.cons_append]

/-- A step that copies the code units of a set `good` wherever they stand acts
separately on the three parts of `u ++ x ++ v` when `x` starts and ends with
such a code unit, and keeps the first and last code unit of `x`. -/
theorem step_sandwich (f : JSString → JSString) (good : Nat → Prop) (hnil : f [] = [])
    (hcons : ∀ u c t, good c → f (u ++ c :: t) = f u ++ c :: f t)
    (u x v : JSString) (hx : x ≠ [])
    (hh : ∀ c, x.head? = some c → good c) (hl : ∀ c, x.getLast? = some c → good c) :
    f (u ++ x ++ v) = f u ++ f x ++ f v ∧ (f x).head? = x.head? ∧
      (f x).getLast? = x.getLast? := by
  have hsingle : ∀ c t, good c → f (c :: t) = c :: f t := by
    intro c t hc
    have := hcons [] c t hc
    simpa [hnil] using this
  obtain ⟨c, t, rfl⟩ : ∃ c t, x = c :: t := by
    cases x with
    | nil => exact absurd rfl hx
    | cons c t => exact ⟨c, t, rfl⟩
  have hc : good c := hh c rfl
  rcases List.eq_nil_or_concat' (c :: t) with h0 | ⟨ini, l, hini⟩
  · exact absurd h0 hx
  · have hgl : good l := hl l (by rw [hini]; exact List.getLast?_concat _)
    have e1 : f (c :: t) = f ini ++ [l] := by
      rw [hini, hcons ini l [] hgl, hnil]
    have e2 : f (c :: t) = c :: f t := hsingle c t hc
    refine ⟨?_, ?_, ?_⟩
    · have s1 : f (u ++ (c :: t) ++ v) = f (u ++ (c :: t)) ++ f v := by
        have a1 : u ++ (c :: t) ++ v = (u ++ ini) ++ l :: v := by rw [hini]; simp
        have a2 : u ++ (c :: t) = (u ++ ini) ++ l :: [] := by rw [hini]; simp
        rw [a1, hcons (u ++ ini) l v hgl, a2, hcons (u ++ ini) l [] hgl, hnil]
        simp
      rw [s1, hcons u c t hc, e2]
    · rw [e2]; rfl
    · rw [e1, List.getLast?_concat, hini, List.getLast?_concat]

theorem all_white_iff_filter (s : JSString) :
    (∀ c ∈ s, isWhiteSpace c = true) ↔ s.filter (fun c => !isWhiteSpace c) = [] := by
  rw [List.filter_eq_nil_iff]
  constructor
  · intro h a ha; simp [h a ha]
  · intro h c hc
    have := h c hc
    simpa using this

theorem trim_sandwich (lead y trail : JSString) (hy : y ≠ [])
    (hlead : ∀ c ∈ lead, isWhiteSpace c = true) (htrail : ∀ c ∈ trail, isWhiteSpace c = true)
    (hh : ∀ c, y.head? = some c → isWhiteSpace c = false)
    (hl : ∀ c, y.getLast? = some c → isWhiteSpace c = false) :
    trim (lead ++ y ++ trail) = y := by
  have e1 : trimStart (lead ++ y ++ trail) = y ++ trail := by
    unfold trimStart
    rw [List.append_assoc, List.dropWhile_append_of_pos hlead]
    apply dropWhile_eq_self_of_head
    intro c hc
    cases y with
    | nil => exact absurd rfl hy
    | cons a t => exact hh c (by simpa using hc)
  have e2 : trimEnd (y ++ trail) = y := by
    unfold trimEnd
    rw [List.reverse_append,
      List.dropWhile_append_of_pos (fun a ha => htrail a (List.mem_reverse.1 ha)),
      dropWhile_eq_self_of_head isWhiteSpace y.reverse (by
        intro c hc
        rw [List.head?_reverse] at hc
        exact hl c hc)]
    exact List.reverse_reverse y
  unfold trim
  rw [e1, e2]

theorem normalize_of_all_white (s : JSString) (hs : ∀ c ∈ s, isWhiteSpace c = true) :
    normalize s = [] := by
  have hf : (normalize s).filter (fun c => !isWhiteSpace c) = [] := by
    unfold normalize
    rw [filter_trim, filter_replaceBlankRuns, filter_replaceNewlineRuns]
    exact (all_white_iff_filter s).1 hs
  have hall := (all_white_iff_filter _).2 hf
  cases hn : normalize s with
  | nil => rfl
  | cons a t =>
    have h1 : isWhiteSpace a = true := hall a (by rw [hn]; exact List.mem_cons_self _ _)
    have h2 : isWhiteSpace a = false := trim_head (replaceBlankRuns (replaceNewlineRuns s)) a (by
      show (normalize s).head? = some a
      rw [hn]; rfl)
    rw [h1] at h2
    exact absurd h2 (by simp)

/-- White space around a core that starts and ends with other code units is
removed, and the core is cleaned by the two replacement steps alone. -/
theorem normalize_core (lead x trail : JSString)
    (hlead : ∀ c ∈ lead, isWhiteSpace c = true) (htrail : ∀ c ∈ trail, isWhiteSpace c = true)
    (hh : ∀ c, x.head? = some c → isWhiteSpace c = false)
    (hl : ∀ c, x.getLast? = some c → isWhiteSpace c = false) :
    normalize (lead ++ x ++ trail) = replaceBlankRuns (replaceNewlineRuns x) := by
  by_cases hx : x = []
  · subst hx
    rw [normalize_of_all_white]
    · simp [replaceNewlineRuns_nil, replaceBlankRuns_nil]
    · intro c hc
      simp only [List.append_nil, List.mem_append] at hc
      rcases hc with hc | hc
      · exact hlead c hc
      · exact htrail c hc
  · have nl_of : ∀ c, isWhiteSpace c = false → c ≠ 10 := by
      intro c hc h10
      rw [h10] at hc
      exact absurd hc (by decide)
    have blank_of : ∀ c, isWhiteSpace c = false → isBlank c = false := by
      intro c hc
      cases hb : isBlank c with
      | false => rfl
      | true => rw [isWhiteSpace_of_isBlank c hb] at hc; exact absurd hc (by simp)
    obtain ⟨n1, n2, n3⟩ := step_sandwich replaceNewlineRuns (fun c => c ≠ 10)
      replaceNewlineRuns_nil (fun u c t => replaceNewlineRuns_append_cons u t c) lead x trail hx
      (fun c hc => nl_of c (hh c hc)) (fun c hc => nl_of c (hl c hc))
    have hnx : replaceNewlineRuns x ≠ [] := by
      intro h0
      rw [h0] at n2
      cases x with
      | nil => exact hx rfl
      | cons a t => simp at n2
    obtain ⟨b1, b2, b3⟩ := step_sandwich replaceBlankRuns (fun c => isBlank c = false)
      replaceBlankRuns_nil (fun u c t => replaceBlankRuns_append_cons u t c)
      (replaceNewlineRuns lead)
      (replaceNewlineRuns x) (replaceNewlineRuns trail) hnx
      (fun c hc => blank_of c (hh c (by rw [← n2]; exact hc)))
      (fun c hc => blank_of c (hl c (by rw [← n3]; exact hc)))
    have hbx : replaceBlankRuns (replaceNewlineRuns x) ≠ [] := by
      intro h0
      rw [h0] at b2
      cases hq : replaceNewlineRuns x with
      | nil => exact hnx hq
      | cons a t => rw [hq] at b2; simp at b2
    have white : ∀ w : JSString, (∀ c ∈ w, isWhiteSpace c = true) →
        ∀ c ∈ replaceBlankRuns (replaceNewlineRuns w), isWhiteSpace c = true := by
      intro w hw
      rw [all_white_iff_filter, filter_replaceBlankRuns, filter_replaceNewlineRuns]
      exact (all_white_iff_filter w).1 hw
    show trim (replaceBlankRuns (replaceNewlineRuns (lead ++ x ++ trail))) = _
    rw [n1, b1]
    exact trim_sandwich _ _ _ hbx (white lead hlead) (white trail htrail)
      (fun c hc => hh c (by rw [← n2, ← b2]; exact hc))
      (fun c hc => hl c (by rw [← n3, ← b3]; exact hc))

/-! ## Words separated by blank runs -/

theorem arrayJoin_cons (sep a : JSString) (ws : List JSString) :
    arrayJoin sep (a :: ws) = a ++ ws.flatMap (fun w => sep ++ w) := by
  induction ws generalizing a with
  | nil => simp [arrayJoin]
  | cons b r ih => simp [arrayJoin, ih b, List.flatMap_cons]

theorem replaceNewlineRuns_of_no_newline (x : JSString) (hx : ∀ c ∈ x, c ≠ 10) :
    replaceNewlineRuns x = x := by
  simpa [replaceNewlineRuns_nil] using replaceNewlineRuns_append_of_no_newline x [] hx

theorem replaceBlankRuns_append_of_no_blank (a y : JSString)
    (ha : ∀ c ∈ a, isBlank c = false) :
    replaceBlankRuns (a ++ y) = a ++ replaceBlankRuns y := by
  induction a with
  | nil => rfl
  | cons c t ih =>
    rw [List.cons_append, replaceBlankRuns_cons_neg c _ (ha c (List.mem_cons_self _ _)),
      ih (fun d hd => ha d (List.mem_cons_of_mem _ hd)), List.cons_append]

theorem isBlank_of_not_white (c : Nat) (hc : isWhiteSpace c = false) : isBlank c = false := by
  cases hb : isBlank c with
  | false => rfl
  | true => rw [isWhiteSpace_of_isBlank c hb] at hc; exact absurd hc (by simp)

/-- Words preceded each by a run of blanks: in the result every run is one space. -/
theorem replaceBlankRuns_runs (rest : List (JSString × JSString))
    (h : ∀ p ∈ rest, p.1 ≠ [] ∧ (∀ c ∈ p.1, c = 32 ∨ c = 9) ∧ p.2 ≠ [] ∧
      (∀ c ∈ p.2, isWhiteSpace c = false)) :
    replaceBlankRuns (rest.flatMap (fun p => p.1 ++ p.2))
      = rest.flatMap (fun p => 32 :: p.2) := by
  induction rest with
  | nil => simp [replaceBlankRuns_nil]
  | cons p tl ih =>
    obtain ⟨h1, h2, h3, h4⟩ := h p (List.mem_cons_self _ _)
    have ihtl := ih (fun q hq => h q (List.mem_cons_of_mem _ hq))
    obtain ⟨r, w⟩ := p
    simp only at h1 h2 h3 h4
    cases r with
    | nil => exact absurd rfl h1
    | cons d r =>
      cases w with
      | nil => exact absurd rfl h3
      | cons e w =>
        have hd : isBlank d = true := (isBlank_iff d).2 (h2 d (List.mem_cons_self _ _))
        have hr : ∀ a ∈ r, isBlank a = true := fun a ha =>
          (isBlank_iff a).2 (h2 a (List.mem_cons_of_mem _ ha))
        have he : isBlank e = false := isBlank_of_not_white e (h4 e (List.mem_cons_self _ _))
        have hw : ∀ c ∈ e :: w, isBlank c = false := fun c hc =>
          isBlank_of_not_white c (h4 c hc)
        have e0 : (((d :: r, e :: w) : JSString × JSString) :: tl).flatMap (fun p => p.1 ++ p.2)
            = d :: (r ++ e :: (w ++ tl.flatMap (fun p => p.1 ++ p.2))) := by
          simp [List.flatMap_cons]
        rw [e0, replaceBlankRuns_cons_pos d _ hd, List.dropWhile_append_of_pos hr,
          List.dropWhile_cons_of_neg (by simp [he])]
        have e1 : e :: (w ++ tl.flatMap (fun p => p.1 ++ p.2))
            = (e :: w) ++ tl.flatMap (fun p => p.1 ++ p.2) := rfl
        rw [e1, replaceBlankRuns_append_of_no_blank _ _ hw, ihtl]
        simp [List.flatMap_cons]

theorem words_getLast (rest : List (JSString × JSString)) :
    ∀ (a : JSString), (∀ c ∈ a, isWhiteSpace c = false) →
      (∀ p ∈ rest, p.2 ≠ [] ∧ (∀ c ∈ p.2, isWhiteSpace c = false)) →
      ∀ c, (a ++ rest.flatMap (fun p => p.1 ++ p.2)).getLast? = some c →
        isWhiteSpace c = false := by
  induction rest with
  | nil =>
    intro a ha _ c hc
    simp only [List.flatMap_nil, List.append_nil] at hc
    exact ha c (List.mem_of_getLast?_eq_some hc)
  | cons p tl ih =>
    intro a _ h c hc
    obtain ⟨h3, h4⟩ := h p (List.mem_cons_self _ _)
    have e : a ++ (p :: tl).flatMap (fun p => p.1 ++ p.2)
        = (a ++ p.1) ++ (p.2 ++ tl.flatMap (fun p => p.1 ++ p.2)) := by
      simp [List.flatMap_cons]
    rw [e, List.getLast?_append_of_ne_nil _ (by simp [h3])] at hc
    exact ih p.2 h4 (fun q hq => h q (List.mem_cons_of_mem _ hq)) c hc

/-! ## The clean-up as a whole -/

theorem normalize_no_triple_newline (s : JSString) : ¬ [10, 10, 10] <:+: normalize s := by
  intro h
  have h1 := List.IsInfix.trans h (trim_isInfix _)
  exact replaceBlankRuns_no_triple _ (replaceNewlineRuns_no_triple s) h1

theorem normalize_no_tab (s : JSString) : 9 ∉ normalize s := by
  intro h
  exact replaceBlankRuns_no_tab _ ((trim_isInfix _).subset h)

theorem normalize_no_double_space (s : JSString) : ¬ [32, 32] <:+: normalize s := by
  intro h
  exact replaceBlankRuns_no_double_space _ (List.IsInfix.trans h (trim_isInfix _))

/-- C1: the clean-up is idempotent: for every string `s`, cleaning
`normalize s` again gives `normalize s`. -/
theorem normalize_idempotent (s : JSString) : normalize (normalize s) = normalize s := by
  have e1 : replaceNewlineRuns (normalize s) = normalize s :=
    replaceNewlineRuns_eq_self _ (normalize_no_triple_newline s)
  have e2 : replaceBlankRuns (normalize s) = normalize s :=
    replaceBlankRuns_eq_self _ (normalize_no_tab s) (normalize_no_double_space s)
  have e3 : trim (normalize s) = normalize s :=
    trim_eq_self _ (trim_head _) (trim_getLast _)
  show trim (replaceBlankRuns (replaceNewlineRuns (normalize s))) = normalize s
  rw [e1, e2, e3]

/-- C5: the clean-up leaves no three newlines in a row, and between two
non-empty strings `a` and `b` without white space a run of `k ≥ 3` newlines
becomes exactly two newlines. -/
theorem normalize_collapses_newline_runs :
    (∀ s : JSString, ¬ [10, 10, 10] <:+: normalize s) ∧
    (∀ (a b : JSString) (k : Nat), a ≠ [] → b ≠ [] →
      (∀ c ∈ a, isWhiteSpace c = false) → (∀ c ∈ b, isWhiteSpace c = false) → 3 ≤ k →
      normalize (a ++ List.replicate k 10 ++ b) = a ++ [10, 10] ++ b) := by
  refine ⟨normalize_no_triple_newline, ?_⟩
  intro a b k ha hb hwa hwb hk
  have nl_of : ∀ x : JSString, (∀ c ∈ x, isWhiteSpace c = false) → ∀ c ∈ x, c ≠ 10 := by
    intro x hx c hc h10
    have := hx c hc
    rw [h10] at this
    exact absurd this (by decide)
  have blank_of : ∀ x : JSString, (∀ c ∈ x, isWhiteSpace c = false) →
      ∀ c ∈ x, isBlank c = false := by
    intro x hx c hc
    cases hb : isBlank c with
    | false => rfl
    | true =>
      have h1 := hx c hc
      rw [isWhiteSpace_of_isBlank c hb] at h1
      exact absurd h1 (by simp)
  obtain ⟨j, rfl⟩ : ∃ j, k = j + 2 := ⟨k - 2, by omega⟩
  have e1 : replaceNewlineRuns (a ++ List.replicate (j + 2) 10 ++ b) = a ++ [10, 10] ++ b := by
    rw [List.append_assoc, replaceNewlineRuns_append_of_no_newline a _ (nl_of a hwa),
      replaceNewlineRuns_replicate j b (nl_of b hwb)]
    simp
  have e2 : replaceBlankRuns (a ++ [10, 10] ++ b) = a ++ [10, 10] ++ b := by
    apply replaceBlankRuns_of_no_blank
    intro c hc
    simp only [List.mem_append, List.mem_cons, List.mem_singleton, List.not_mem_nil,
      or_false] at hc
    rcases hc with (hc | hc | hc) | hc
    · exact blank_of a hwa c hc
    · rw [hc]; decide
    · rw [hc]; decide
    · exact blank_of b hwb c hc
  have e3 : trim (a ++ [10, 10] ++ b) = a ++ [10, 10] ++ b := by
    apply trim_eq_self
    · intro c hc
      cases a with
      | nil => exact absurd rfl ha
      | cons x t =>
        simp only [List.cons_append, List.head?_cons, Option.some.injEq] at hc
        exact hwa c (by rw [← hc]; exact List.mem_cons_self _ _)
    · intro c hc
      rw [List.getLast?_append_of_ne_nil _ hb] at hc
      exact hwb c (List.mem_of_getLast?_eq_some hc)
  show trim (replaceBlankRuns (replaceNewlineRuns _)) = _
  rw [e1, e2, e3]

/-- C6: the cleaned text holds no tab and no two spaces in a row, and neither
its first nor its last code unit is white space (space, tab and newline
included).  The collapsing and the trimming are exact: words without white
space that are separated by runs of spaces and tabs, with any white space
around the whole, come out joined by single spaces; and a text that already
has no tab, no two spaces in a row, no three newlines in a row and no white
space at its ends comes out unchanged when white space is put around it. -/
theorem normalize_blanks_and_ends :
    (∀ s : JSString,
      9 ∉ normalize s ∧ ¬ [32, 32] <:+: normalize s ∧
      (∀ c, (normalize s).head? = some c → isWhiteSpace c = false) ∧
      (∀ c, (normalize s).getLast? = some c → isWhiteSpace c = false)) ∧
    (∀ (lead trail a : JSString) (rest : List (JSString × JSString)),
      (∀ c ∈ lead, isWhiteSpace c = true) → (∀ c ∈ trail, isWhiteSpace c = true) →
      a ≠ [] → (∀ c ∈ a, isWhiteSpace c = false) →
      (∀ p ∈ rest, p.1 ≠ [] ∧ (∀ c ∈ p.1, c = 32 ∨ c = 9) ∧ p.2 ≠ [] ∧
        (∀ c ∈ p.2, isWhiteSpace c = false)) →
      normalize (lead ++ (a ++ rest.flatMap (fun p => p.1 ++ p.2)) ++ trail)
        = arrayJoin [32] (a :: rest.map (fun p => p.2))) ∧
    (∀ (lead x trail : JSString),
      (∀ c ∈ lead, isWhiteSpace c = true) → (∀ c ∈ trail, isWhiteSpace c = true) →
      9 ∉ x → ¬ [32, 32] <:+: x → ¬ [10, 10, 10] <:+: x →
      (∀ c, x.head? = some c → isWhiteSpace c = false) →
      (∀ c, x.getLast? = some c → isWhiteSpace c = false) →
      normalize (lead ++ x ++ trail) = x) := by
  refine ⟨fun s => ⟨normalize_no_tab s, normalize_no_double_space s, trim_head _,
    trim_getLast _⟩, ?_, ?_⟩
  · intro lead trail a rest hlead htrail ha hwa hrest
    have hh : ∀ c, (a ++ rest.flatMap (fun p => p.1 ++ p.2)).head? = some c →
        isWhiteSpace c = false := by
      intro c hc
      cases a with
      | nil => exact absurd rfl ha
      | cons x t =>
        simp only [List.cons_append, List.head?_cons, Option.some.injEq] at hc
        exact hwa c (by rw [← hc]; exact List.mem_cons_self _ _)
    have hl := words_getLast rest a hwa (fun p hp => ⟨(hrest p hp).2.2.1, (hrest p hp).2.2.2⟩)
    rw [normalize_core lead _ trail hlead htrail hh hl]
    have hnl : ∀ c ∈ a ++ rest.flatMap (fun p => p.1 ++ p.2), c ≠ 10 := by
      intro c hc h10
      subst h10
      rcases List.mem_append.1 hc with hc | hc
      · exact absurd (hwa 10 hc) (by decide)
      · obtain ⟨p, hp, hcp⟩ := List.mem_flatMap.1 hc
        rcases List.mem_append.1 hcp with h1 | h1
        · rcases (hrest p hp).2.1 10 h1 with h | h <;> omega
        · exact absurd ((hrest p hp).2.2.2 10 h1) (by decide)
    rw [replaceNewlineRuns_of_no_newline _ hnl,
      replaceBlankRuns_append_of_no_blank a _ (fun c hc => isBlank_of_not_white c (hwa c hc)),
      replaceBlankRuns_runs rest hrest, arrayJoin_cons]
    congr 1
    clear hh hl hnl hrest
    induction rest with
    | nil => rfl
    | cons p tl ih => simp [List.flatMap_cons, ih]
  · intro lead x trail hlead htrail htab hdbl hnl hh hl
    rw [normalize_core lead x trail hlead htrail hh hl, replaceNewlineRuns_eq_self x hnl,
      replaceBlankRuns_eq_self x htab hdbl]

theorem normalize_blanks_and_ends_witness :
    normalize (utf16 "\n \r" ++
        (utf16 "ab" ++ [(utf16 " \t ", utf16 "c"), (utf16 "\t", utf16 "de")].flatMap
          (fun p => p.1 ++ p.2)) ++ utf16 " \n")
      = utf16 "ab c de" ∧
    normalize (utf16 "\n\t " ++ utf16 "a b\n\nc\rd" ++ utf16 " \r\n") = utf16 "a b\n\nc\rd" :=
  ⟨(normalize_blanks_and_ends.2.1 (utf16 "\n \r") (utf16 " \n") (utf16 "ab")
      [(utf16 " \t ", utf16 "c"), (utf16 "\t", utf16 "de")]
      (by decide) (by decide) (by decide) (by decide) (by decide)).trans (by decide),
   normalize_blanks_and_ends.2.2 (utf16 "\n\t ") (utf16 "a b\n\nc\rd") (utf16 " \r\n")
      (by decide) (by decide) (by decide) (by decide) (by decide) (by decide) (by decide)⟩

/-- C10: the clean-up changes white space only: the code units of `normalize s`
that are no white space are those of `s`, in the same order. -/
theorem normalize_keeps_non_white_space (s : JSString) :
    (normalize s).filter (fun c => !isWhiteSpace c) = s.filter (fun c => !isWhiteSpace c) := by
  unfold normalize
  rw [filter_trim, filter_replaceBlankRuns, filter_replaceNewlineRuns]

theorem normalize_collapses_newline_runs_witness :
    normalize (utf16 "ab" ++ List.replicate 4 10 ++ utf16 "c") = utf16 "ab" ++ [10, 10] ++ utf16 "c" :=
  normalize_collapses_newline_runs.2 (utf16 "ab") (utf16 "c") 4 (by decide) (by decide)
    (by decide) (by decide) (by decide)

/-! ## `authenticate` and the missing file -/

/-- C4: `authenticate` calls `next()` exactly when the secret is set, not
empty and equal to the header `x-api-key`; in every other case it answers
`401 {error: "Unauthorized"}` and the route reaches neither the upload parser
nor an extractor. -/
theorem authenticate_iff_key (env : Env) (req : Request) :
    (authenticate env req = .next ↔
      ∃ k, env.API_KEY = some k ∧ k ≠ [] ∧ req.apiKeyHeader = some k) ∧
    (authenticate env req = .next ∨
      (authenticate env req = .respond ⟨401, .error (utf16 "Unauthorized")⟩ ∧
        postExtract env req = ⟨⟨401, .error (utf16 "Unauthorized")⟩, []⟩)) := by
  constructor
  · unfold authenticate
    cases hk : env.API_KEY with
    | none => simp [falsy]
    | some k =>
      cases k with
      | nil => simp [falsy]
      | cons a t =>
        by_cases hh : req.apiKeyHeader = some (a :: t)
        · simp [falsy, hh]
        · simp [falsy, hh]
  · by_cases h : falsy env.API_KEY || req.apiKeyHeader != env.API_KEY
    · right
      have ha : authenticate env req = .respond ⟨401, .error (utf16 "Unauthorized")⟩ := by
        unfold authenticate; rw [if_pos h]
      refine ⟨ha, ?_⟩
      unfold postExtract; rw [ha]
    · left
      unfold authenticate; rw [if_neg h]

/-- C9: a request that passes `authenticate` and carries no file is answered
`400 {error: "No file uploaded"}`, and no extractor is called. -/
theorem missing_file_rejected (env : Env) (req : Request)
    (hauth : authenticate env req = .next) (hfile : req.file = none) :
    postExtract env req = ⟨⟨400, .error (utf16 "No file uploaded")⟩, [.uploadParse]⟩ ∧
    Call.extractRawText ∉ (postExtract env req).calls ∧
    Call.extractPDFText ∉ (postExtract env req).calls := by
  have e : postExtract env req
      = ⟨⟨400, .error (utf16 "No file uploaded")⟩, [.uploadParse]⟩ := by
    unfold postExtract extractHandler
    rw [hauth, hfile]
  rw [e]
  exact ⟨rfl, by decide, by decide⟩

theorem missing_file_rejected_witness :
    postExtract sampleEnv ⟨some (utf16 "s3cret"), none⟩
      = ⟨⟨400, .error (utf16 "No file uploaded")⟩, [.uploadParse]⟩ :=
  (missing_file_rejected sampleEnv ⟨some (utf16 "s3cret"), none⟩ (by decide) rfl).1

/-! ## The dispatch -/

theorem isDocx_eq_true_iff (env : Env) (file : UploadedFile) :
    isDocx env file = true ↔
      file.mimetype = docxMime ∨
        endsWith (env.toLowerCase file.originalname) (utf16 ".docx") = true := by
  simp [isDocx]

theorem isPdf_eq_true_iff (env : Env) (file : UploadedFile) :
    isPdf env file = true ↔
      file.mimetype = pdfMime ∨
        endsWith (env.toLowerCase file.originalname) (utf16 ".pdf") = true := by
  simp [isPdf]

theorem extractHandler_calls (env : Env) (hdr : Option JSString) (file : UploadedFile) :
    (extractHandler env ⟨hdr, some file⟩).calls =
      if isDocx env file = true then [.extractRawText]
      else if isPdf env file = true then [.extractPDFText] else [] := by
  unfold extractHandler
  simp only
  split
  · split <;> rfl
  · split
    · split <;> rfl
    · rfl

/-- C3: the dispatch decides on MIME type and lower-cased filename only.  The
DOCX extractor is called exactly when the MIME type is the DOCX type or the
lower-cased filename ends in `.docx`; otherwise the PDF extractor is called
exactly when the MIME type is `application/pdf` or the lower-cased filename
ends in `.pdf`; otherwise the answer is `400 {error: "Unsupported file type"}`
and no extractor is called, as for `a.txt` of type `text/plain`. -/
theorem dispatch_three_way (env : Env) (hdr : Option JSString) (file : UploadedFile) :
    (Call.extractRawText ∈ (extractHandler env ⟨hdr, some file⟩).calls ↔
      (file.mimetype = docxMime ∨
        endsWith (env.toLowerCase file.originalname) (utf16 ".docx") = true)) ∧
    (Call.extractPDFText ∈ (extractHandler env ⟨hdr, some file⟩).calls ↔
      ¬ (file.mimetype = docxMime ∨
        endsWith (env.toLowerCase file.originalname) (utf16 ".docx") = true) ∧
      (file.mimetype = pdfMime ∨
        endsWith (env.toLowerCase file.originalname) (utf16 ".pdf") = true)) ∧
    (¬ (file.mimetype = docxMime ∨
        endsWith (env.toLowerCase file.originalname) (utf16 ".docx") = true) →
      ¬ (file.mimetype = pdfMime ∨
        endsWith (env.toLowerCase file.originalname) (utf16 ".pdf") = true) →
      extractHandler env ⟨hdr, some file⟩
        = ⟨⟨400, .error (utf16 "Unsupported file type")⟩, []⟩) ∧
    (∀ (hdr2 : Option JSString) (buffer2 : Buffer),
      (extractHandler env ⟨hdr2, some ⟨buffer2, file.mimetype, file.originalname⟩⟩).calls
        = (extractHandler env ⟨hdr, some file⟩).calls) ∧
    (file.mimetype = utf16 "text/plain" → file.originalname = utf16 "a.txt" →
      env.toLowerCase (utf16 "a.txt") = utf16 "a.txt" →
      extractHandler env ⟨hdr, some file⟩
        = ⟨⟨400, .error (utf16 "Unsupported file type")⟩, []⟩) := by
  have hunsup : isDocx env file = false → isPdf env file = false →
      extractHandler env ⟨hdr, some file⟩
        = ⟨⟨400, .error (utf16 "Unsupported file type")⟩, []⟩ := by
    intro h1 h2
    unfold extractHandler
    simp [h1, h2]
  rw [← isDocx_eq_true_iff, ← isPdf_eq_true_iff]
  refine ⟨?_, ?_, ?_, ?_, ?_⟩
  · rw [extractHandler_calls]
    cases isDocx env file <;> cases isPdf env file <;> simp
  · rw [extractHandler_calls]
    cases isDocx env file <;> cases isPdf env file <;> simp
  · intro h1 h2
    exact hunsup (by simpa using h1) (by simpa using h2)
  · intro hdr2 buffer2
    rw [extractHandler_calls, extractHandler_calls]
    rfl
  · intro hm hn hl
    apply hunsup
    · simp only [isDocx, hm, hn, hl]; decide
    · simp only [isPdf, hm, hn, hl]; decide

theorem dispatch_three_way_witness :
    extractHandler sampleEnv ⟨none, some ⟨[1, 2, 3], utf16 "text/plain", utf16 "a.txt"⟩⟩
      = ⟨⟨400, .error (utf16 "Unsupported file type")⟩, []⟩ :=
  (dispatch_three_way sampleEnv none ⟨[1, 2, 3], utf16 "text/plain", utf16 "a.txt"⟩).2.2.2.2
    rfl rfl (by decide)

/-- C2, as stated, fails: a file named `a.pdf` whose declared MIME type is the
DOCX type goes to the DOCX extractor, and the PDF path is not called. -/
theorem pdf_label_counterexample :
    endsWith (utf16 "a.pdf") (utf16 ".pdf") = true ∧
    (extractHandler sampleEnv ⟨none, some ⟨[37, 80, 68, 70], docxMime, utf16 "a.pdf"⟩⟩).calls
      = [.extractRawText] := by
  decide

/-- C2, amended: a file whose MIME type is `application/pdf` or whose
lower-cased filename ends in `.pdf`, and which the DOCX test does not accept
(its MIME type is not the DOCX type and its lower-cased filename does not end
in `.docx`), goes to the PDF path and never to the DOCX path, whatever its
bytes. -/
theorem pdf_dispatch (env : Env) (hdr : Option JSString) (file : UploadedFile)
    (hpdf : file.mimetype = pdfMime ∨
      endsWith (env.toLowerCase file.originalname) (utf16 ".pdf") = true)
    (hmime : file.mimetype ≠ docxMime)
    (hname : endsWith (env.toLowerCase file.originalname) (utf16 ".docx") = false) :
    (extractHandler env ⟨hdr, some file⟩).calls = [.extractPDFText] ∧
    Call.extractPDFText ∈ (extractHandler env ⟨hdr, some file⟩).calls ∧
    Call.extractRawText ∉ (extractHandler env ⟨hdr, some file⟩).calls := by
  have h1 : isDocx env file = false := by
    simp [isDocx, hmime, hname]
  have h2 : isPdf env file = true := (isPdf_eq_true_iff env file).2 hpdf
  have e : (extractHandler env ⟨hdr, some file⟩).calls = [.extractPDFText] := by
    rw [extractHandler_calls, h1, h2]
    rfl
  rw [e]
  exact ⟨rfl, by decide, by decide⟩

theorem pdf_dispatch_witness :
    (extractHandler sampleEnv ⟨none, some ⟨[0, 255], utf16 "text/plain", utf16 "Scan.PDF"⟩⟩).calls
      = [.extractPDFText] :=
  (pdf_dispatch sampleEnv none ⟨[0, 255], utf16 "text/plain", utf16 "Scan.PDF"⟩
    (Or.inr (by decide)) (by decide) (by decide)).1

/-! ## `extractPDFText` -/

theorem map_str_map_mk (items : List JSString) :
    (items.map TextItem.mk).map (fun item => item.str) = items := by
  induction items with
  | nil => rfl
  | cons a t ih => simp only [List.map_cons, ih]

theorem pageLoop_ofPages (pages : List (List JSString)) :
    ∀ (remaining i : Nat) (fullText : JSString), i + remaining = pages.length →
      pageLoop (PDFDocument.ofPages pages) remaining (i + 1) fullText
        = .ok (fullText ++ (pages.drop i).flatMap pageText) := by
  intro remaining
  induction remaining with
  | zero =>
    intro i fullText h
    have : pages.drop i = [] := List.drop_eq_nil_of_le (by omega)
    simp [pageLoop, this]
  | succ n ih =>
    intro i fullText h
    have hi : i < pages.length := by omega
    have hd : pages.drop i = pages[i] :: pages.drop (i + 1) := List.drop_eq_getElem_cons hi
    have hg : (PDFDocument.ofPages pages).getPage (i + 1)
        = .ok ⟨.ok ⟨pages[i].map TextItem.mk⟩⟩ := by
      simp [PDFDocument.ofPages, List.getElem?_eq_getElem hi]
    unfold pageLoop
    rw [hg]
    simp only [map_str_map_mk]
    rw [ih (i + 1) _ (by omega), hd, List.flatMap_cons, List.append_assoc]
    rfl

/-- C7, as stated, fails: for the document of one page with the single item
`"a"` the function returns `"a\n"`, not the pages joined by newlines, `"a"`. -/
theorem extractPDFText_join_counterexample :
    extractPDFText { sampleEnv with getDocument := fun _ => .ok (PDFDocument.ofPages [[utf16 "a"]]) } []
      = .ok (utf16 "a\n") ∧
    arrayJoin [10] ([[utf16 "a"]].map (arrayJoin [32])) = utf16 "a" ∧
    utf16 "a\n" ≠ utf16 "a" := by
  refine ⟨rfl, by decide, by decide⟩

/-- C7, amended: for a document given as a list of pages of text-item strings,
`extractPDFText` goes through the pages from page 1 to the last and returns,
in page order, each page's items joined by a single space and followed by a
newline (every page, the last included, is ended by a newline).  Joined by a
single space means: the first item, then every further item preceded by one
space. -/
theorem extractPDFText_pages (env : Env) (buffer : Buffer) (pages : List (List JSString))
    (hdoc : env.getDocument buffer = .ok (PDFDocument.ofPages pages)) :
    extractPDFText env buffer
      = .ok (pages.flatMap (fun items => arrayJoin [32] items ++ [10])) ∧
    (∀ items : List JSString, arrayJoin [32] items =
      match items with
      | [] => []
      | first :: others => first ++ others.flatMap (fun item => 32 :: item)) := by
  refine ⟨?_, ?_⟩
  · unfold extractPDFText
    rw [hdoc]
    have := pageLoop_ofPages pages pages.length 0 [] (by omega)
    simpa [pageText] using this
  · intro items
    cases items with
    | nil => rfl
    | cons first others => exact arrayJoin_cons [32] first others

theorem extractPDFText_pages_witness :
    extractPDFText (pagesEnv samplePages) [37, 80, 68, 70]
      = .ok (utf16 "Dear reader, hello\n\n page 3\nbye\n") :=
  (extractPDFText_pages (pagesEnv samplePages) [37, 80, 68, 70] samplePages rfl).1.trans
    (congrArg Except.ok (by decide))

/-! ## The successful response -/

/-- C8: when a request passes `authenticate` and carries a file whose extractor
returns the text `t`, the answer is `200` with `success = true`, the original
filename, `text = normalize t` and `characters` the length of that text; for a
one-page PDF with the single item `"Hello World"` the text is `"Hello World"`
and `characters` is 11. -/
theorem extract_success :
    (∀ (env : Env) (req : Request) (file : UploadedFile) (t : JSString),
      authenticate env req = .next → req.file = some file →
      ((isDocx env file = true ∧ env.extractRawText file.buffer = .ok t) ∨
        (isDocx env file = false ∧ isPdf env file = true ∧
          extractPDFText env file.buffer = .ok t)) →
      (postExtract env req).response
        = ⟨200, .success true file.originalname (normalize t).length (normalize t)⟩) ∧
    (∀ (env : Env) (req : Request) (file : UploadedFile),
      authenticate env req = .next → req.file = some file →
      isDocx env file = false → isPdf env file = true →
      env.getDocument file.buffer = .ok (PDFDocument.ofPages [[utf16 "Hello World"]]) →
      (postExtract env req).response
        = ⟨200, .success true file.originalname 11 (utf16 "Hello World")⟩) := by
  have general : ∀ (env : Env) (req : Request) (file : UploadedFile) (t : JSString),
      authenticate env req = .next → req.file = some file →
      ((isDocx env file = true ∧ env.extractRawText file.buffer = .ok t) ∨
        (isDocx env file = false ∧ isPdf env file = true ∧
          extractPDFText env file.buffer = .ok t)) →
      (postExtract env req).response
        = ⟨200, .success true file.originalname (normalize t).length (normalize t)⟩ := by
    intro env req file t hauth hfile h
    unfold postExtract extractHandler
    rw [hauth, hfile]
    rcases h with ⟨h1, h2⟩ | ⟨h1, h2, h3⟩
    · simp [h1, h2, respondText]
    · simp [h1, h2, h3, respondText]
  refine ⟨general, ?_⟩
  intro env req file hauth hfile h1 h2 hdoc
  have ht : extractPDFText env file.buffer = .ok (utf16 "Hello World\n") := by
    unfold extractPDFText
    rw [hdoc]
    rfl
  have hn : normalize (utf16 "Hello World\n") = utf16 "Hello World" := by decide
  rw [general env req file _ hauth hfile (Or.inr ⟨h1, h2, ht⟩), hn]
  rfl

theorem extract_success_witness :
    (postExtract sampleEnv
        ⟨some (utf16 "s3cret"), some ⟨[80, 75, 3, 4], docxMime, utf16 "letter.docx"⟩⟩).response
      = ⟨200, .success true (utf16 "letter.docx") 17 (utf16 "Dear reader,\n\nbye")⟩ :=
  (extract_success.1 sampleEnv
    ⟨some (utf16 "s3cret"), some ⟨[80, 75, 3, 4], docxMime, utf16 "letter.docx"⟩⟩
    ⟨[80, 75, 3, 4], docxMime, utf16 "letter.docx"⟩ (utf16 "Dear  reader,\n\n\n\nbye\n")
    (by decide) rfl (Or.inl ⟨by decide, rfl⟩)).trans (by decide)

end Extractor
